import Mathlib

/-!
Verification of the Cisco_RTBH_Pusher merge/exclude/render pipeline.

The definitions below shallowly embed the Python source:
  - `calculate_mask` from `rtbh_pusher.py` / `scripts/cisco_commands.py`;
  - the per-line command generation of `generate_cisco_commands`;
  - the merge/exclude engine `merge_ip_ranges`;
  - the IP-set operations delegated to the external `netaddr` library,
    modelled from the specification since that library is not part of the
    repository.
Machine integers are `Nat` with explicit bounds (addresses live below 2^32).
-/

/-- Embeds `calculate_mask` (`rtbh_pusher.py` lines 240-252 and
`scripts/cisco_commands.py` lines 29-34): start from `[0,0,0,0]` and, for
each `i` in `range(cidr)`, add `1 << (7 - i % 8)` to octet `i // 8`.
`List.set` ignores out-of-range indices; in Python an index above 3 would
raise, which only happens for `cidr > 32`, outside the documented domain. -/
def calculate_mask (cidr : Nat) : List Nat :=
  (List.range cidr).foldl
    (fun mask i => mask.set (i / 8) (mask.getD (i / 8) 0 + 2 ^ (7 - i % 8)))
    [0, 0, 0, 0]

/-- Embeds the mask rendering `'.'.join(map(str, mask))` used when a command
line is formatted. -/
def maskString (cidr : Nat) : String :=
  String.intercalate "." ((calculate_mask cidr).map toString)

/-- Embeds Python's `'\n'.join(commands)`. -/
def joinLines : List String → String
  | [] => ""
  | [x] => x
  | x :: y :: rest => x ++ "\n" ++ joinLines (y :: rest)

/-- Embeds the document assembly of `generate_cisco_commands`
(`rtbh_pusher.py` lines 309-311):
`output_content = '\n'.join(commands) if commands else ''` followed by
`output_content += '\nend' if commands else 'end'`. -/
def renderDocument (commands : List String) : String :=
  (if commands.isEmpty then "" else joinLines commands)
    ++ (if commands.isEmpty then "end" else "\nend")

/-- Embeds the post-processing of `generate_cisco_commands`
(`rtbh_pusher.py` lines 313-318): the finished commands file is reopened,
its content `content` is read, the cursor is rewound and
`f"no ip route *\n{content}"` is written, then the file is truncated at the
write position, so the file ends up holding exactly the new string. -/
def rewriteWithPurgeHeader (content : String) : String :=
  "no ip route *\n" ++ content

/-- A network block: an IPv4 address (as a natural number below `2^32`)
together with a CIDR length. The address may still carry host bits set
beyond the mask; stored sets canonicalize on insertion. -/
structure Block where
  addr : Nat
  plen : Nat
  deriving DecidableEq, Repr

/-- Splits a character list at every occurrence of `c`, keeping empty
parts, with the semantics of Python's `str.split(c)` used at
`line.split('/')` and for the dotted-quad octets. -/
def splitOnChar (c : Char) : List Char → List (List Char)
  | [] => [[]]
  | x :: xs =>
    let r := splitOnChar c xs
    if x == c then [] :: r
    else
      match r with
      | y :: ys => (x :: y) :: ys
      | [] => [[x]]

/-- The whitespace characters stripped by Python's `str.strip()` (the ASCII
ones that can occur in the text inputs handled here). -/
def isPyWhitespace (c : Char) : Bool :=
  c == ' ' || c == '\t' || c == '\n' || c == '\r' || c == '\x0b' || c == '\x0c'

/-- Embeds Python's `line.strip()`. -/
def stripChars (l : List Char) : List Char :=
  ((l.dropWhile isPyWhitespace).reverse.dropWhile isPyWhitespace).reverse

/-- Parses a non-empty all-digit character list as a decimal natural,
the successful case of Python's `int(...)` on the strings reaching it. -/
def decToNat? (l : List Char) : Option Nat :=
  if l.isEmpty then none
  else if l.all Char.isDigit then
    some (l.foldl (fun acc c => acc * 10 + (c.toNat - 48)) 0)
  else none

/-- One decimal octet: digits with value at most 255. -/
def parseOctet (l : List Char) : Option Nat :=
  match decToNat? l with
  | some n => if n ≤ 255 then some n else none
  | none => none

/-- Modelled from the spec: the address half of the Network Parser (§4.1);
the repository delegates address parsing to the external `netaddr` /
`ipaddress` libraries, which are not part of the source tree. The address
must be four dot-separated decimal octets each in `[0,255]`; the parsed
value is the 32-bit big-endian composition of the octets. -/
def parseAddr (l : List Char) : Option Nat :=
  match splitOnChar '.' l with
  | [a, b, c, d] =>
    match parseOctet a, parseOctet b, parseOctet c, parseOctet d with
    | some a', some b', some c', some d' =>
      some (((a' * 256 + b') * 256 + c') * 256 + d')
    | _, _, _, _ => none
  | _ => none

/-- Modelled from the spec: the Network Parser contract (§4.1) standing in
for `netaddr.IPNetwork` / `ipaddress.ip_network`, which are external
libraries. Splits on `/`; with no `/`, a prefix length of 32 is assumed;
with one, the right part must be a decimal integer in `[0,32]`. The
returned address is the parsed value before canonicalization. -/
def parseLine (l : List Char) : Option Block :=
  match splitOnChar '/' l with
  | [a] => (parseAddr a).map fun n => Block.mk n 32
  | [a, p] =>
    match parseAddr a, decToNat? p with
    | some n, some pl => if pl ≤ 32 then some (Block.mk n pl) else none
    | _, _ => none
  | _ => none

/-- Embeds the per-line body of `generate_cisco_commands`
(`rtbh_pusher.py` lines 283-307): a line containing `#` anywhere is
skipped; the stripped line must pass the `ipaddress.ip_network` validation
(modelled by `parseLine`, see its docstring); a line without `/` is
skipped; otherwise the line splits into address and CIDR strings and one
command is formatted from the original address string and the computed
mask. Returns `none` when the line contributes no command. -/
def processLine (firstCommand secondCommand line : String) : Option String :=
  if line.data.contains '#' then none
  else
    let l := stripChars line.data
    if (parseLine l).isNone then none
    else if Bool.not (l.contains '/') then none
    else
      match splitOnChar '/' l with
      | [addrString, cidrString] =>
        match decToNat? cidrString with
        | some cidr =>
          some (firstCommand ++ " " ++ String.mk addrString ++ " "
            ++ maskString cidr ++ " " ++ secondCommand)
        | none => none
      | _ => none

/-! ### IP sets

`rtbh_pusher.py` performs `merged_set.add(network)`, `merged_set -
exclude_set` and `final_set.iter_cidrs()` through `netaddr.IPSet`, an
external library that is not part of the repository. The definitions in
this section are therefore modelled from the spec (§3 and §4.2): an IP set
is kept as a normalized list of half-open address intervals `[lo, hi)` —
pairwise disjoint, non-adjacent, ascending — and `iter_cidrs` lays the
minimal CIDR covering over those intervals, largest aligned block first. -/

/-- A half-open interval `[lo, hi)` of 32-bit addresses. -/
abbrev Iv := Nat × Nat

/-- Holds when `x` is one of the addresses covered by the interval list. -/
def memIvs (x : Nat) (l : List Iv) : Prop :=
  ∃ iv ∈ l, iv.1 ≤ x ∧ x < iv.2

instance (x : Nat) (l : List Iv) : Decidable (memIvs x l) := by
  unfold memIvs; infer_instance

/-- The normalization invariant, phrased with a running lower bound `c` on
the next interval start: every interval is non-empty, ends at or below
`2^32`, and each is separated from the next by at least one address (so
adjacent intervals are always coalesced). -/
def NormFrom (c : Nat) : List Iv → Prop
  | [] => True
  | iv :: rest => c ≤ iv.1 ∧ iv.1 < iv.2 ∧ iv.2 ≤ 2 ^ 32 ∧ NormFrom (iv.2 + 1) rest

instance instDecNormFrom : (c : Nat) → (l : List Iv) → Decidable (NormFrom c l)
  | _, [] => .isTrue trivial
  | _, iv :: rest =>
    have : Decidable (NormFrom (iv.2 + 1) rest) := instDecNormFrom _ rest
    inferInstanceAs (Decidable (_ ∧ _ ∧ _ ∧ _))

/-- Modelled from the spec: union of a normalized interval list with one
interval `[lo, hi)`, merging everything it overlaps or touches (§4.2:
adjacent blocks forming a supernet must merge, so touching intervals
coalesce). -/
def addIv (lo hi : Nat) : List Iv → List Iv
  | [] => [(lo, hi)]
  | (a, b) :: rest =>
    if hi < a then (lo, hi) :: (a, b) :: rest
    else if b < lo then (a, b) :: addIv lo hi rest
    else addIv (min lo a) (max hi b) rest

/-- Modelled from the spec: removes the interval `[lo, hi)` from a
normalized interval list (§4.2 `subtract`, classic CIDR hole punching at
the interval level: each stored interval keeps its parts strictly before
`lo` and at or after `hi`). -/
def subIv (lo hi : Nat) : List Iv → List Iv
  | [] => []
  | (a, b) :: rest =>
    (if a < min b lo then [(a, min b lo)] else [])
      ++ (if max a hi < b then [(max a hi, b)] else [])
      ++ subIv lo hi rest

/-- Modelled from the spec: the IP Set component (§3, §4.2), standing in
for `netaddr.IPSet`. -/
structure IPSet where
  ivs : List Iv
  deriving DecidableEq, Repr

/-- The empty set, `IPSet()`. -/
def IPSet.empty : IPSet := ⟨[]⟩

/-- The number of addresses a block covers. -/
def blockSize (b : Block) : Nat := 2 ^ (32 - b.plen)

/-- First address after a block (its start plus its size). -/
def blockEnd (b : Block) : Nat := b.addr + blockSize b

/-- The canonical network address of a block: host bits zeroed. -/
def canonStart (b : Block) : Nat := b.addr / blockSize b * blockSize b

/-- Modelled from the spec: `add(block)` (§4.2) canonicalizes the incoming
block and merges its address range into the normalized interval list. -/
def IPSet.add (s : IPSet) (b : Block) : IPSet :=
  ⟨addIv (canonStart b) (canonStart b + blockSize b) s.ivs⟩

/-- Modelled from the spec: `subtract(other)` (§4.2) removes every address
covered by `other`, interval by interval. -/
def IPSet.subtract (s t : IPSet) : IPSet :=
  ⟨t.ivs.foldl (fun acc iv => subIv iv.1 iv.2 acc) s.ivs⟩

/-- Holds when `x` is one of the addresses of the set. -/
def IPSet.mem (s : IPSet) (x : Nat) : Prop := memIvs x s.ivs

instance (s : IPSet) (x : Nat) : Decidable (s.mem x) := by
  unfold IPSet.mem; infer_instance

/-- The sets reachable from the empty set by `add` of valid blocks and
`subtract` of reachable sets — §3: an IPSet is created empty and mutated
only through `add(block)` and `subtract(otherSet)`. -/
inductive IPSet.Reachable : IPSet → Prop
  | empty : IPSet.Reachable IPSet.empty
  | add {s : IPSet} {b : Block} : IPSet.Reachable s → b.addr < 2 ^ 32 →
      b.plen ≤ 32 → IPSet.Reachable (s.add b)
  | subtract {s t : IPSet} : IPSet.Reachable s → IPSet.Reachable t →
      IPSet.Reachable (s.subtract t)

/-- Returns the largest `m ≤ n` satisfying `p`, or 0. -/
def findLargest (p : Nat → Bool) : Nat → Nat
  | 0 => 0
  | n + 1 => if p (n + 1) then n + 1 else findLargest p n

/-- The exponent of the largest aligned power-of-two block that starts at
`lo` and holds at most `len` addresses (capped at `2^32`). -/
def stepExp (lo len : Nat) : Nat :=
  findLargest (fun k => (lo % 2 ^ k == 0) && Nat.ble (2 ^ k) len) 32

/-- Modelled from the spec: the minimal CIDR covering of `[lo, hi)`
(§4.2 `iterCIDRs`, the greedy largest-aligned-block decomposition used by
`netaddr.IPSet.iter_cidrs`). Structural recursion on a fuel that bounds
the remaining length; each step emits at least one address, so `hi - lo`
fuel always suffices. -/
def rangeToCidrsGo : Nat → Nat → Nat → List Block
  | 0, _, _ => []
  | fuel + 1, lo, hi =>
    if lo < hi then
      Block.mk lo (32 - stepExp lo (hi - lo))
        :: rangeToCidrsGo fuel (lo + 2 ^ stepExp lo (hi - lo)) hi
    else []

/-- The minimal CIDR covering of the interval `[lo, hi)`. -/
def rangeToCidrs (lo hi : Nat) : List Block := rangeToCidrsGo (hi - lo) lo hi

/-- Modelled from the spec: `iterCIDRs()` (§4.2) — the blocks of the
minimal CIDR covering, in ascending address order. -/
def IPSet.iterCidrs (s : IPSet) : List Block :=
  s.ivs.flatMap fun iv => rangeToCidrs iv.1 iv.2

/-- Two blocks `a`, `b` are mergeable siblings: same prefix length,
`b` starts exactly where `a` ends, and `a` is aligned on the common
supernet, so both merge into one block one prefix shorter. -/
def Mergeable (a b : Block) : Prop :=
  a.plen = b.plen ∧ 0 < a.plen ∧ blockEnd a = b.addr ∧
    a.addr % (2 * blockSize a) = 0

instance (a b : Block) : Decidable (Mergeable a b) := by
  unfold Mergeable; infer_instance

/-- The two pairwise guarantees of §4.2 on an emitted CIDR sequence:
strictly ascending and disjoint, and no two blocks form mergeable
siblings. -/
def WellSplit (a b : Block) : Prop :=
  a.addr < b.addr ∧ blockEnd a ≤ b.addr ∧ ¬ Mergeable a b

/-- Holds when `x` is an address covered by one of the blocks. -/
def coveredBy (x : Nat) (bs : List Block) : Prop :=
  ∃ b ∈ bs, b.addr ≤ x ∧ x < blockEnd b

instance (x : Nat) (bs : List Block) : Decidable (coveredBy x bs) := by
  unfold coveredBy; infer_instance

/-- A block list tiles the interval `[lo, hi)` exactly: each block starts
where the previous one ended, the first starts at `lo`, and the last ends
at `hi`. -/
def chainCover (lo hi : Nat) : List Block → Prop
  | [] => lo = hi
  | b :: rest =>
    b.addr = lo ∧ lo < blockEnd b ∧ blockEnd b ≤ hi ∧ chainCover (blockEnd b) hi rest

/-! ### The merge/exclude engine -/

/-- The fatal outcomes of the engine (§7): no source line parsed, or the
exclusions covered every accumulated address. -/
inductive EngineError
  | noValidNetworks
  | emptyAfterExclusion
  deriving DecidableEq, Repr

/-- What a `merge_ip_ranges` run produces: the engine result plus the
diagnostic log of skipped invalid source lines (the
`Skipping invalid network: ...` prints). -/
instance {ε α : Type} [DecidableEq ε] [DecidableEq α] :
    DecidableEq (Except ε α) := fun a b =>
  match a, b with
  | .error e, .error e' => decidable_of_iff (e = e') (by simp)
  | .ok v, .ok v' => decidable_of_iff (v = v') (by simp)
  | .error _, .ok _ => .isFalse (by simp)
  | .ok _, .error _ => .isFalse (by simp)

structure MergeOutput where
  result : Except EngineError (List Block)
  log : List String
  deriving DecidableEq

/-- Python's `if line and not line.startswith('#')` applied to a stripped
line (`rtbh_pusher.py` line 208). -/
def isActive : List Char → Bool
  | [] => false
  | c :: _ => c != '#'

/-- Embeds one iteration of the source-line loop of `merge_ip_ranges`
(`rtbh_pusher.py` lines 206-214) over the accumulator
(working set, success flag, diagnostic log): strip the line; if it is
non-blank and not a `#` comment, try to parse it — on success add the
network and set the flag, on failure log and skip. -/
def mergeStep (acc : IPSet × Bool × List String) (line : String) :
    IPSet × Bool × List String :=
  let l := stripChars line.data
  if isActive l then
    match parseLine l with
    | some b => (acc.1.add b, true, acc.2.2)
    | none => (acc.1, acc.2.1, acc.2.2 ++ [String.mk l])
  else acc

/-- Embeds the whole source loop of `merge_ip_ranges` (lines 202-214):
every line of every source blob folded into the empty set, with the
success flag initially false. -/
def mergedStateOf (sources : List (List String)) : IPSet × Bool × List String :=
  (sources.flatMap id).foldl mergeStep (IPSet.empty, false, [])

/-- Embeds the exclusion loop of `merge_ip_ranges` (lines 220-227): each
configured exclusion line (pre-stripped by `read_list_config`) is parsed
and added, and invalid ones are skipped. -/
def exclSetOf (exclusions : List String) : IPSet :=
  exclusions.foldl
    (fun e line =>
      match parseLine (stripChars line.data) with
      | some b => e.add b
      | none => e)
    IPSet.empty

/-- The set the engine ends with: merged sources minus exclusions
(`final_set = merged_set - exclude_set`, line 230). -/
def finalSetOf (sources : List (List String)) (exclusions : List String) : IPSet :=
  (mergedStateOf sources).1.subtract (exclSetOf exclusions)

/-- Embeds the control flow of `merge_ip_ranges` (`rtbh_pusher.py` lines
202-238) over in-memory blobs: fold every source line into the working
set; if no line parsed, fail (`No valid networks found`); otherwise build
the exclusion set, subtract it, and fail if nothing is left
(`No networks left after applying exclusions`); otherwise the run succeeds
with the minimal CIDR sequence that the source writes out via
`final_set.iter_cidrs()`. -/
def merge_ip_ranges (sources : List (List String)) (exclusions : List String) :
    MergeOutput :=
  if (mergedStateOf sources).2.1 = false then
    ⟨.error .noValidNetworks, (mergedStateOf sources).2.2⟩
  else if (finalSetOf sources exclusions).ivs = [] then
    ⟨.error .emptyAfterExclusion, (mergedStateOf sources).2.2⟩
  else
    ⟨.ok (finalSetOf sources exclusions).iterCidrs, (mergedStateOf sources).2.2⟩

/-- The stripped source lines that the engine actually tries to parse:
non-blank and not starting with `#`. -/
def activeLines (sources : List (List String)) : List (List Char) :=
  ((sources.flatMap id).map fun line => stripChars line.data).filter isActive

/-! ### Lemmas about the greedy CIDR decomposition -/

theorem findLargest_le (p : Nat → Bool) (n : Nat) : findLargest p n ≤ n := by
  induction n with
  | zero => simp [findLargest]
  | succ n ih =>
    simp only [findLargest]
    split
    · exact Nat.le_refl _
    · exact Nat.le_trans ih (Nat.le_succ n)

theorem findLargest_sat (p : Nat → Bool) (n : Nat) (h0 : p 0 = true) :
    p (findLargest p n) = true := by
  induction n with
  | zero => simpa [findLargest]
  | succ n ih =>
    simp only [findLargest]
    split
    · assumption
    · exact ih

theorem le_findLargest (p : Nat → Bool) (n k : Nat) (hk : k ≤ n)
    (hp : p k = true) : k ≤ findLargest p n := by
  induction n with
  | zero => simp [findLargest, Nat.le_zero.mp hk]
  | succ n ih =>
    simp only [findLargest]
    split
    · exact hk
    · rename_i hnp
      have hkn : k ≤ n := by
        rcases Nat.lt_or_ge k (n + 1) with h | h
        · omega
        · exfalso; have : k = n + 1 := by omega
          rw [this] at hp; simp [hp] at hnp
      exact ih hkn

theorem stepExp_le (lo len : Nat) : stepExp lo len ≤ 32 :=
  findLargest_le _ _

theorem stepExp_valid (lo len : Nat) (h : 1 ≤ len) :
    lo % 2 ^ stepExp lo len = 0 ∧ 2 ^ stepExp lo len ≤ len := by
  have h0 : ((lo % 2 ^ 0 == 0) && Nat.ble (2 ^ 0) len) = true := by
    simp [Nat.mod_one, Nat.ble_eq, h]
  have := findLargest_sat (fun k => (lo % 2 ^ k == 0) && Nat.ble (2 ^ k) len) 32 h0
  simpa [stepExp, Bool.and_eq_true, beq_iff_eq, Nat.ble_eq] using this

theorem le_stepExp (lo len k : Nat) (hk : k ≤ 32) (hdvd : lo % 2 ^ k = 0)
    (hle : 2 ^ k ≤ len) : k ≤ stepExp lo len :=
  le_findLargest _ _ _ hk (by simp [hdvd, Nat.ble_eq, hle])

theorem blockSize_pos (b : Block) : 0 < blockSize b :=
  Nat.pos_pow_of_pos _ (by omega)

theorem blockSize_mk (lo e : Nat) (he : e ≤ 32) :
    blockSize (Block.mk lo (32 - e)) = 2 ^ e := by
  simp only [blockSize]
  congr 1
  omega

theorem blockEnd_mk (lo e : Nat) (he : e ≤ 32) :
    blockEnd (Block.mk lo (32 - e)) = lo + 2 ^ e := by
  simp [blockEnd, blockSize_mk lo e he]

theorem rangeToCidrsGo_chain :
    ∀ (fuel lo hi : Nat), hi - lo ≤ fuel → lo ≤ hi →
      chainCover lo hi (rangeToCidrsGo fuel lo hi) := by
  intro fuel
  induction fuel with
  | zero =>
    intro lo hi hf hle
    have heq : lo = hi := by omega
    simp [rangeToCidrsGo, chainCover, heq]
  | succ n ih =>
    intro lo hi hf hle
    simp only [rangeToCidrsGo]
    split
    · rename_i hlt
      have hv := stepExp_valid lo (hi - lo) (by omega)
      have he32 : stepExp lo (hi - lo) ≤ 32 := stepExp_le _ _
      have hend := blockEnd_mk lo (stepExp lo (hi - lo)) he32
      have hpos : 0 < 2 ^ stepExp lo (hi - lo) := Nat.pos_pow_of_pos _ (by omega)
      refine ⟨rfl, ?_, ?_, ?_⟩
      · rw [hend]; omega
      · rw [hend]; omega
      · rw [hend]
        exact ih (lo + 2 ^ stepExp lo (hi - lo)) hi (by omega) (by omega)
    · rename_i hge
      have heq : lo = hi := by omega
      simp [chainCover, heq]

theorem chainCover_mem :
    ∀ {l : List Block} {lo hi : Nat}, chainCover lo hi l →
      ∀ b ∈ l, lo ≤ b.addr ∧ b.addr < blockEnd b ∧ blockEnd b ≤ hi := by
  intro l
  induction l with
  | nil => intro lo hi _ b hb; simp at hb
  | cons a rest ih =>
    intro lo hi h b hb
    obtain ⟨ha, hlt, hle, hrest⟩ := h
    rcases List.mem_cons.mp hb with hb | hb
    · subst hb; omega
    · have := ih hrest b hb
      omega

theorem chainCover_coverage :
    ∀ {l : List Block} {lo hi : Nat}, chainCover lo hi l →
      ∀ x, coveredBy x l ↔ lo ≤ x ∧ x < hi := by
  intro l
  induction l with
  | nil =>
    intro lo hi h x
    simp only [chainCover] at h
    simp [coveredBy, h]
  | cons a rest ih =>
    intro lo hi h x
    obtain ⟨ha, hlt, hle, hrest⟩ := h
    have hr := ih hrest x
    simp only [coveredBy, List.mem_cons] at *
    constructor
    · rintro ⟨b, hb | hb, hxb⟩
      · subst hb; omega
      · have := hr.mp ⟨b, hb, hxb⟩; omega
    · intro hx
      by_cases hcase : x < blockEnd a
      · exact ⟨a, Or.inl rfl, by omega⟩
      · obtain ⟨b, hb, hxb⟩ := hr.mpr (by omega)
        exact ⟨b, Or.inr hb, hxb⟩


theorem wellSplit_head (lo hi : Nat) (b : Block) (hlt : lo < hi)
    (hm1 : lo + 2 ^ stepExp lo (hi - lo) ≤ b.addr)
    (hm3 : blockEnd b ≤ hi) :
    WellSplit (Block.mk lo (32 - stepExp lo (hi - lo))) b := by
  set e := stepExp lo (hi - lo) with he
  have he32 : e ≤ 32 := stepExp_le _ _
  have hpos : 0 < 2 ^ e := Nat.pos_pow_of_pos _ (by omega)
  have hend : blockEnd (Block.mk lo (32 - e)) = lo + 2 ^ e := blockEnd_mk lo e he32
  have haddr : (Block.mk lo (32 - e)).addr = lo := rfl
  refine ⟨by omega, by omega, ?_⟩
  rintro ⟨hp, hppos, hadj, halign⟩
  have hp' : b.plen = 32 - e := hp.symm
  have hppos' : 0 < 32 - e := hppos
  have hadj' : lo + 2 ^ e = b.addr := by rw [← hend]; exact hadj
  have hbsmk : blockSize (Block.mk lo (32 - e)) = 2 ^ e := blockSize_mk lo e he32
  have halign' : lo % (2 * 2 ^ e) = 0 := by
    rw [hbsmk] at halign
    exact halign
  have hbsz : blockSize b = 2 ^ e := by
    rw [blockSize, hp']
    congr 1
    omega
  have hbend : blockEnd b = b.addr + 2 ^ e := by rw [blockEnd, hbsz]
  have hfit : 2 ^ (e + 1) ≤ hi - lo := by
    have h1 : b.addr + 2 ^ e ≤ hi := by rw [← hbend]; exact hm3
    have h2 : (2 : Nat) ^ (e + 1) = 2 ^ e + 2 ^ e := by rw [pow_succ]; omega
    omega
  have halign2 : lo % 2 ^ (e + 1) = 0 := by
    have h2 : (2 : Nat) ^ (e + 1) = 2 * 2 ^ e := by rw [pow_succ]; omega
    rw [h2]
    exact halign'
  have hcontra := le_stepExp lo (hi - lo) (e + 1) (by omega) halign2 hfit
  omega

theorem rangeToCidrsGo_pairwise :
    ∀ (fuel lo hi : Nat), hi - lo ≤ fuel →
      (rangeToCidrsGo fuel lo hi).Pairwise WellSplit := by
  intro fuel
  induction fuel with
  | zero => intro lo hi _; simp [rangeToCidrsGo]
  | succ n ih =>
    intro lo hi hf
    simp only [rangeToCidrsGo]
    split
    · rename_i hlt
      have hv := stepExp_valid lo (hi - lo) (by omega)
      have hpos : 0 < 2 ^ stepExp lo (hi - lo) := Nat.pos_pow_of_pos _ (by omega)
      refine List.Pairwise.cons ?_ (ih _ _ (by omega))
      intro b hb
      have hchain := rangeToCidrsGo_chain n (lo + 2 ^ stepExp lo (hi - lo)) hi
        (by omega) (by omega)
      obtain ⟨hm1, _, hm3⟩ := chainCover_mem hchain b hb
      exact wellSplit_head lo hi b hlt hm1 hm3
    · simp

/-! ### Lemmas about interval union, difference, and normalization -/

theorem memIvs_nil (x : Nat) : memIvs x [] ↔ False := by
  simp [memIvs]

theorem memIvs_cons {x : Nat} {iv : Iv} {l : List Iv} :
    memIvs x (iv :: l) ↔ (iv.1 ≤ x ∧ x < iv.2) ∨ memIvs x l := by
  simp [memIvs, List.mem_cons, or_and_right, exists_or]

theorem memIvs_append {x : Nat} {l₁ l₂ : List Iv} :
    memIvs x (l₁ ++ l₂) ↔ memIvs x l₁ ∨ memIvs x l₂ := by
  simp [memIvs, List.mem_append, or_and_right, exists_or]

theorem memIvs_addIv :
    ∀ (l : List Iv) (lo hi x : Nat),
      memIvs x (addIv lo hi l) ↔ (lo ≤ x ∧ x < hi) ∨ memIvs x l := by
  intro l
  induction l with
  | nil =>
    intro lo hi x
    simp [addIv, memIvs_cons, memIvs_nil]
  | cons iv rest ih =>
    intro lo hi x
    obtain ⟨a, b⟩ := iv
    simp only [addIv]
    split
    · rename_i h1
      simp only [memIvs_cons]
    · split
      · rename_i h1 h2
        simp only [memIvs_cons, ih]
        tauto
      · rename_i h1 h2
        rw [ih]
        simp only [memIvs_cons]
        by_cases hr : memIvs x rest <;> simp [hr]
        all_goals omega

theorem memIvs_subIv :
    ∀ (l : List Iv) (lo hi x : Nat),
      memIvs x (subIv lo hi l) ↔ memIvs x l ∧ ¬ (lo ≤ x ∧ x < hi) := by
  intro l
  induction l with
  | nil =>
    intro lo hi x
    simp [subIv, memIvs_nil]
  | cons iv rest ih =>
    intro lo hi x
    obtain ⟨a, b⟩ := iv
    simp only [subIv, memIvs_append, memIvs_cons, ih]
    by_cases h1 : a < min b lo <;> by_cases h2 : max a hi < b <;>
      by_cases hr : memIvs x rest <;>
      simp [h1, h2, hr, memIvs_cons, memIvs_nil] <;>
      omega

theorem NormFrom.mono {l : List Iv} {c c' : Nat} (h : c' ≤ c)
    (hn : NormFrom c l) : NormFrom c' l := by
  cases l with
  | nil => trivial
  | cons iv rest =>
    obtain ⟨h1, h2, h3, h4⟩ := hn
    exact ⟨by omega, h2, h3, h4⟩

theorem NormFrom.mem :
    ∀ {l : List Iv} {c : Nat}, NormFrom c l →
      ∀ iv ∈ l, c ≤ iv.1 ∧ iv.1 < iv.2 ∧ iv.2 ≤ 2 ^ 32 := by
  intro l
  induction l with
  | nil => intro c _ iv hm; simp at hm
  | cons j rest ih =>
    intro c hn iv hm
    obtain ⟨h1, h2, h3, h4⟩ := hn
    rcases List.mem_cons.mp hm with hm | hm
    · subst hm; exact ⟨h1, h2, h3⟩
    · have := ih h4 iv hm
      omega

theorem addIv_norm :
    ∀ (l : List Iv) (c lo hi : Nat), NormFrom c l → c ≤ lo → lo < hi →
      hi ≤ 2 ^ 32 → NormFrom c (addIv lo hi l) := by
  intro l
  induction l with
  | nil =>
    intro c lo hi _ hc hlh h32
    exact ⟨hc, hlh, h32, trivial⟩
  | cons iv rest ih =>
    intro c lo hi hn hc hlh h32
    obtain ⟨a, b⟩ := iv
    obtain ⟨h1, h2, h3, h4⟩ := hn
    simp only [addIv]
    split
    · rename_i hb1
      exact ⟨hc, hlh, h32, by omega, h2, h3, h4⟩
    · split
      · rename_i hb1 hb2
        exact ⟨h1, h2, h3, ih (b + 1) lo hi h4 (by omega) hlh h32⟩
      · rename_i hb1 hb2
        refine ih c (min lo a) (max hi b) (h4.mono (by omega)) (by omega)
          (by omega) (by omega)

theorem subIv_norm :
    ∀ (l : List Iv) (c lo hi : Nat), NormFrom c l → lo < hi →
      NormFrom c (subIv lo hi l) := by
  intro l
  induction l with
  | nil => intro c lo hi _ _; trivial
  | cons iv rest ih =>
    intro c lo hi hn hlh
    obtain ⟨a, b⟩ := iv
    obtain ⟨h1, h2, h3, h4⟩ := hn
    have ihr := ih (b + 1) lo hi h4 hlh
    simp only [subIv]
    by_cases hb1 : a < min b lo <;> by_cases hb2 : max a hi < b <;>
      simp only [hb1, hb2, if_true, if_false, List.cons_append,
        List.nil_append]
    · exact ⟨by omega, hb1, by omega, by omega, hb2, h3,
        ihr.mono (by omega)⟩
    · exact ⟨by omega, hb1, by omega, ihr.mono (by omega)⟩
    · exact ⟨by omega, hb2, h3, ihr.mono (by omega)⟩
    · exact ihr.mono (by omega)

/-! ### Lemmas at the IP-set level -/

theorem canonStart_le_addr (b : Block) : canonStart b ≤ b.addr :=
  Nat.div_mul_le_self _ _

theorem canonEnd_le (b : Block) (ha : b.addr < 2 ^ 32) (hp : b.plen ≤ 32) :
    canonStart b + blockSize b ≤ 2 ^ 32 := by
  have hpos : 0 < blockSize b := blockSize_pos b
  have hsplit : 2 ^ b.plen * blockSize b = 2 ^ 32 := by
    rw [blockSize, ← pow_add]
    congr 1
    omega
  have hq : b.addr / blockSize b < 2 ^ b.plen := by
    rw [Nat.div_lt_iff_lt_mul hpos, hsplit]
    exact ha
  have : (b.addr / blockSize b + 1) * blockSize b ≤ 2 ^ b.plen * blockSize b :=
    Nat.mul_le_mul_right _ (by omega)
  calc canonStart b + blockSize b
      = (b.addr / blockSize b + 1) * blockSize b := by
        rw [canonStart, Nat.add_mul, Nat.one_mul]
    _ ≤ 2 ^ b.plen * blockSize b := this
    _ = 2 ^ 32 := hsplit

theorem IPSet.add_norm {s : IPSet} {b : Block} (hs : NormFrom 0 s.ivs)
    (ha : b.addr < 2 ^ 32) (hp : b.plen ≤ 32) :
    NormFrom 0 (s.add b).ivs := by
  have hpos : 0 < blockSize b := blockSize_pos b
  exact addIv_norm s.ivs 0 _ _ hs (Nat.zero_le _) (by omega)
    (canonEnd_le b ha hp)

theorem foldl_subIv_norm :
    ∀ (tl acc : List Iv), NormFrom 0 acc → (∀ iv ∈ tl, iv.1 < iv.2) →
      NormFrom 0 (tl.foldl (fun a iv => subIv iv.1 iv.2 a) acc) := by
  intro tl
  induction tl with
  | nil => intro acc h _; exact h
  | cons iv rest ih =>
    intro acc h hlt
    simp only [List.foldl_cons]
    exact ih _ (subIv_norm acc 0 iv.1 iv.2 h (hlt iv (List.mem_cons_self _ _)))
      (fun j hj => hlt j (List.mem_cons_of_mem _ hj))

theorem IPSet.subtract_norm {s t : IPSet} (hs : NormFrom 0 s.ivs)
    (ht : NormFrom 0 t.ivs) : NormFrom 0 (s.subtract t).ivs :=
  foldl_subIv_norm t.ivs s.ivs hs (fun iv hiv => (ht.mem iv hiv).2.1)

theorem IPSet.mem_add {s : IPSet} {b : Block} {x : Nat} :
    (s.add b).mem x ↔
      (canonStart b ≤ x ∧ x < canonStart b + blockSize b) ∨ s.mem x :=
  memIvs_addIv s.ivs _ _ x

theorem IPSet.mem_subtract {s t : IPSet} {x : Nat} :
    (s.subtract t).mem x ↔ s.mem x ∧ ¬ t.mem x := by
  show memIvs x (t.ivs.foldl (fun acc iv => subIv iv.1 iv.2 acc) s.ivs) ↔
    memIvs x s.ivs ∧ ¬ memIvs x t.ivs
  induction t.ivs generalizing s with
  | nil => simp [memIvs_nil]
  | cons iv rest ih =>
    simp only [List.foldl_cons]
    rw [ih (s := ⟨subIv iv.1 iv.2 s.ivs⟩)]
    show memIvs x (subIv iv.1 iv.2 s.ivs) ∧ _ ↔ _
    rw [memIvs_subIv, memIvs_cons]
    tauto

theorem IPSet.reachable_norm {s : IPSet} (h : s.Reachable) :
    NormFrom 0 s.ivs := by
  induction h with
  | empty => trivial
  | add _ ha hp ih => exact IPSet.add_norm ih ha hp
  | subtract _ _ ih ih' => exact IPSet.subtract_norm ih ih'

/-! ### Lemmas about the emitted CIDR sequence -/

theorem flatMapCidrs_addr_lb :
    ∀ {l : List Iv} {c : Nat}, NormFrom c l →
      ∀ b ∈ l.flatMap (fun iv => rangeToCidrs iv.1 iv.2), c ≤ b.addr := by
  intro l
  induction l with
  | nil => intro c _ b hb; simp at hb
  | cons iv rest ih =>
    intro c hn b hb
    obtain ⟨h1, h2, h3, h4⟩ := hn
    rw [List.flatMap_cons] at hb
    rcases List.mem_append.mp hb with hb | hb
    · have hchain := rangeToCidrsGo_chain (iv.2 - iv.1) iv.1 iv.2
        (Nat.le_refl _) (by omega)
      have := chainCover_mem hchain b hb
      omega
    · have := ih h4 b hb
      omega

theorem iterCidrs_pairwise :
    ∀ {l : List Iv} {c : Nat}, NormFrom c l →
      (l.flatMap (fun iv => rangeToCidrs iv.1 iv.2)).Pairwise WellSplit := by
  intro l
  induction l with
  | nil => intro c _; simp
  | cons iv rest ih =>
    intro c hn
    obtain ⟨h1, h2, h3, h4⟩ := hn
    simp only [List.flatMap_cons]
    rw [List.pairwise_append]
    refine ⟨rangeToCidrsGo_pairwise _ _ _ (Nat.le_refl _), ih h4, ?_⟩
    intro a ha b hb
    have hchain := rangeToCidrsGo_chain (iv.2 - iv.1) iv.1 iv.2
      (Nat.le_refl _) (by omega)
    have hA := chainCover_mem hchain a ha
    have hB := flatMapCidrs_addr_lb h4 b hb
    have hsz : 0 < blockSize a := blockSize_pos a
    refine ⟨by omega, by omega, ?_⟩
    rintro ⟨_, _, hadj, _⟩
    omega

theorem iterCidrs_coverage :
    ∀ {l : List Iv} {c : Nat}, NormFrom c l → ∀ x,
      coveredBy x (l.flatMap (fun iv => rangeToCidrs iv.1 iv.2)) ↔ memIvs x l := by
  intro l
  induction l with
  | nil => intro c _ x; simp [coveredBy, memIvs]
  | cons iv rest ih =>
    intro c hn x
    obtain ⟨h1, h2, h3, h4⟩ := hn
    simp only [List.flatMap_cons]
    have hchain := rangeToCidrsGo_chain (iv.2 - iv.1) iv.1 iv.2
      (Nat.le_refl _) (by omega)
    have hcov := chainCover_coverage hchain x
    rw [memIvs_cons]
    constructor
    · rintro ⟨b, hb, hxb⟩
      rcases List.mem_append.mp hb with hb | hb
      · exact Or.inl (hcov.mp ⟨b, hb, hxb⟩)
      · exact Or.inr ((ih h4 x).mp ⟨b, hb, hxb⟩)
    · rintro (hx | hx)
      · obtain ⟨b, hb, hxb⟩ := hcov.mpr hx
        exact ⟨b, List.mem_append.mpr (Or.inl hb), hxb⟩
      · obtain ⟨b, hb, hxb⟩ := (ih h4 x).mpr hx
        exact ⟨b, List.mem_append.mpr (Or.inr hb), hxb⟩

theorem IPSet.iterCidrs_pairwise_of_norm {s : IPSet} (h : NormFrom 0 s.ivs) :
    s.iterCidrs.Pairwise WellSplit :=
  iterCidrs_pairwise h

theorem IPSet.coveredBy_iterCidrs {s : IPSet} (h : NormFrom 0 s.ivs) (x : Nat) :
    coveredBy x s.iterCidrs ↔ s.mem x :=
  iterCidrs_coverage h x

theorem IPSet.empty_iff_no_mem {s : IPSet} (h : NormFrom 0 s.ivs) :
    s.ivs = [] ↔ ∀ x, ¬ s.mem x := by
  constructor
  · intro he x hx
    obtain ⟨iv, hiv, _⟩ := hx
    rw [he] at hiv
    simp at hiv
  · intro hx
    cases hs : s.ivs with
    | nil => rfl
    | cons iv rest =>
      exfalso
      have := h.mem iv (by rw [hs]; exact List.mem_cons_self _ _)
      exact hx iv.1 ⟨iv, by rw [hs]; exact List.mem_cons_self _ _, by omega⟩

/-! ### Lemmas about the parser and the engine loops -/

theorem parseOctet_le {l : List Char} {n : Nat} (h : parseOctet l = some n) :
    n ≤ 255 := by
  unfold parseOctet at h
  cases hd : decToNat? l with
  | none => rw [hd] at h; exact absurd h (by simp)
  | some m =>
    rw [hd] at h
    by_cases hm : m ≤ 255
    · simp only [hm, if_true, Option.some.injEq] at h
      omega
    · simp [hm] at h

theorem parseAddr_lt {l : List Char} {n : Nat} (h : parseAddr l = some n) :
    n < 2 ^ 32 := by
  unfold parseAddr at h
  split at h
  · split at h
    · rename_i ha hb hc hd
      simp only [Option.some.injEq] at h
      have h1 := parseOctet_le ha
      have h2 := parseOctet_le hb
      have h3 := parseOctet_le hc
      have h4 := parseOctet_le hd
      omega
    · simp at h
  · simp at h

theorem parseLine_valid {l : List Char} {b : Block}
    (h : parseLine l = some b) : b.addr < 2 ^ 32 ∧ b.plen ≤ 32 := by
  unfold parseLine at h
  split at h
  · rename_i a heq
    cases hpa : parseAddr a with
    | none => rw [hpa] at h; simp at h
    | some n =>
      rw [hpa] at h
      simp only [Option.map_some', Option.some.injEq] at h
      subst h
      exact ⟨parseAddr_lt hpa, Nat.le_refl 32⟩
  · rename_i a p heq
    split at h
    · rename_i n pl hpa hpl
      split at h
      · rename_i h32
        simp only [Option.some.injEq] at h
        subst h
        exact ⟨parseAddr_lt hpa, h32⟩
      · simp at h
    · simp at h
  · simp at h

theorem mergeStep_flag (acc : IPSet × Bool × List String) (line : String) :
    (mergeStep acc line).2.1 =
      (acc.2.1 || (isActive (stripChars line.data)
        && (parseLine (stripChars line.data)).isSome)) := by
  unfold mergeStep
  by_cases ha : isActive (stripChars line.data)
  · cases hp : parseLine (stripChars line.data) <;> simp [ha, hp]
  · simp [ha]

theorem mergeStep_log (acc : IPSet × Bool × List String) (line : String) :
    (mergeStep acc line).2.2 = acc.2.2 ++
      (if isActive (stripChars line.data)
          && (parseLine (stripChars line.data)).isNone
        then [String.mk (stripChars line.data)] else []) := by
  unfold mergeStep
  by_cases ha : isActive (stripChars line.data)
  · cases hp : parseLine (stripChars line.data) <;> simp [ha, hp]
  · simp [ha]

theorem mergeStep_norm (acc : IPSet × Bool × List String) (line : String)
    (h : NormFrom 0 acc.1.ivs) : NormFrom 0 (mergeStep acc line).1.ivs := by
  unfold mergeStep
  by_cases ha : isActive (stripChars line.data)
  · cases hp : parseLine (stripChars line.data) with
    | none => simpa [ha, hp] using h
    | some b =>
      have hv := parseLine_valid hp
      simpa [ha, hp] using IPSet.add_norm h hv.1 hv.2
  · simpa [ha] using h

theorem foldl_mergeStep_flag :
    ∀ (lines : List String) (acc : IPSet × Bool × List String),
      (lines.foldl mergeStep acc).2.1 =
        (acc.2.1 || lines.any fun line =>
          isActive (stripChars line.data)
            && (parseLine (stripChars line.data)).isSome) := by
  intro lines
  induction lines with
  | nil => intro acc; simp
  | cons line rest ih =>
    intro acc
    simp only [List.foldl_cons, List.any_cons]
    rw [ih, mergeStep_flag]
    cases acc.2.1 <;>
      cases h : (isActive (stripChars line.data)
        && (parseLine (stripChars line.data)).isSome) <;> simp

theorem foldl_mergeStep_log :
    ∀ (lines : List String) (acc : IPSet × Bool × List String),
      (lines.foldl mergeStep acc).2.2 = acc.2.2 ++
        lines.flatMap (fun line =>
          if isActive (stripChars line.data)
              && (parseLine (stripChars line.data)).isNone
            then [String.mk (stripChars line.data)] else []) := by
  intro lines
  induction lines with
  | nil => intro acc; simp
  | cons line rest ih =>
    intro acc
    simp only [List.foldl_cons, List.flatMap_cons]
    rw [ih, mergeStep_log, List.append_assoc]

theorem foldl_mergeStep_norm :
    ∀ (lines : List String) (acc : IPSet × Bool × List String),
      NormFrom 0 acc.1.ivs →
      NormFrom 0 ((lines.foldl mergeStep acc).1).ivs := by
  intro lines
  induction lines with
  | nil => intro acc h; exact h
  | cons line rest ih =>
    intro acc h
    exact ih _ (mergeStep_norm acc line h)

theorem mergedStateOf_norm (sources : List (List String)) :
    NormFrom 0 (mergedStateOf sources).1.ivs :=
  foldl_mergeStep_norm _ _ trivial

theorem exclSetOf_norm (exclusions : List String) :
    NormFrom 0 (exclSetOf exclusions).ivs := by
  unfold exclSetOf
  suffices h : ∀ (acc : IPSet), NormFrom 0 acc.ivs →
      NormFrom 0 (exclusions.foldl
        (fun e line =>
          match parseLine (stripChars line.data) with
          | some b => e.add b
          | none => e) acc).ivs from
    h IPSet.empty trivial
  induction exclusions with
  | nil => intro acc h; exact h
  | cons line rest ih =>
    intro acc h
    simp only [List.foldl_cons]
    cases hp : parseLine (stripChars line.data) with
    | none => simpa [hp] using ih acc h
    | some b =>
      have hv := parseLine_valid hp
      simpa [hp] using ih _ (IPSet.add_norm h hv.1 hv.2)

theorem finalSetOf_norm (sources : List (List String))
    (exclusions : List String) :
    NormFrom 0 (finalSetOf sources exclusions).ivs :=
  IPSet.subtract_norm (mergedStateOf_norm sources) (exclSetOf_norm exclusions)

theorem mem_activeLines {sources : List (List String)} {l : List Char} :
    l ∈ activeLines sources ↔
      ∃ line ∈ sources.flatMap id,
        stripChars line.data = l ∧ isActive l = true := by
  constructor
  · intro h
    rw [activeLines, List.mem_filter] at h
    obtain ⟨hm, hact⟩ := h
    obtain ⟨line, hline, heq⟩ := List.mem_map.mp hm
    exact ⟨line, hline, heq, hact⟩
  · rintro ⟨line, hline, heq, hact⟩
    rw [activeLines, List.mem_filter]
    exact ⟨List.mem_map.mpr ⟨line, hline, heq⟩, hact⟩

theorem mergedStateOf_flag {sources : List (List String)} :
    (mergedStateOf sources).2.1 = false ↔
      ∀ l ∈ activeLines sources, parseLine l = none := by
  rw [mergedStateOf, foldl_mergeStep_flag]
  simp only [Bool.false_or, List.any_eq_false, Bool.and_eq_true,
    Bool.not_eq_true]
  constructor
  · intro h l hl
    obtain ⟨line, hline, heq, hact⟩ := mem_activeLines.mp hl
    have hb := h line hline
    subst heq
    cases hp : parseLine (stripChars line.data) with
    | none => rfl
    | some b => exact absurd ⟨hact, by simp [hp]⟩ hb
  · intro h line hline
    by_cases hact : isActive (stripChars line.data)
    · have hl : stripChars line.data ∈ activeLines sources :=
        mem_activeLines.mpr ⟨line, hline, rfl, hact⟩
      have hnone := h _ hl
      rintro ⟨_, hsome⟩
      simp [hnone] at hsome
    · rintro ⟨hact', _⟩
      exact hact (by simp [hact'])

theorem merge_ip_ranges_log (sources : List (List String))
    (exclusions : List String) :
    (merge_ip_ranges sources exclusions).log = (mergedStateOf sources).2.2 := by
  unfold merge_ip_ranges
  split
  · rfl
  · split <;> rfl

/-! ### Lemmas about document rendering -/

theorem joinLines_append_end :
    ∀ (rest : List String) (x : String),
      joinLines ((x :: rest) ++ ["end"]) = joinLines (x :: rest) ++ "\nend" := by
  intro rest
  induction rest with
  | nil =>
    intro x
    show x ++ "\n" ++ joinLines ["end"] = x ++ "\nend"
    rw [String.append_assoc]
    rfl
  | cons y rest ih =>
    intro x
    show x ++ "\n" ++ joinLines ((y :: rest) ++ ["end"])
      = x ++ "\n" ++ joinLines (y :: rest) ++ "\nend"
    rw [ih y]
    simp [String.append_assoc]

/-! ### Claim theorems -/

/-- C1: for every prefix length in `[0,32]`, `calculate_mask` produces a
4-octet list whose octet `i` has exactly the top `min 8 (cidr - 8*i)` bits
set (the value `2^8 - 2^(8 - m)` for `m` top bits), and the rendered
dotted mask matches the standard CIDR-to-mask table at /24, /32 and /0. -/
theorem calculate_mask_matches_table :
    (∀ cidr, cidr ≤ 32 → ∀ i, i < 4 →
      (calculate_mask cidr).getD i 0 = 2 ^ 8 - 2 ^ (8 - min 8 (cidr - 8 * i)))
    ∧ maskString 24 = "255.255.255.0"
    ∧ maskString 32 = "255.255.255.255"
    ∧ maskString 0 = "0.0.0.0" := by
  refine ⟨by decide, by decide, by decide, by decide⟩

theorem calculate_mask_matches_table_witness :
    (calculate_mask 24).getD 3 0 = 2 ^ 8 - 2 ^ (8 - min 8 (24 - 8 * 3)) :=
  calculate_mask_matches_table.1 24 (by decide) 3 (by decide)

/-- C8: the render stage is total — it is a plain function of the command
list — and for every (possibly empty) command sequence it joins the lines
with single newlines and unconditionally appends a final `end` line, so the
empty sequence yields exactly `end`. -/
theorem render_document_total :
    (∀ commands : List String,
      renderDocument commands = joinLines (commands ++ ["end"]))
    ∧ renderDocument [] = "end" := by
  refine ⟨?_, by decide⟩
  intro commands
  cases commands with
  | nil => decide
  | cons x rest =>
    rw [joinLines_append_end]
    simp [renderDocument]

/-- C9: whenever the render stage emits a command for a line, the address
field of that command is the original, unmasked address text from the
line — the characters before the `/` — verbatim, even when host bits are
set beyond the mask. -/
theorem address_echoed_verbatim :
    ∀ (firstCommand secondCommand line cmd : String),
      processLine firstCommand secondCommand line = some cmd →
      ∃ addrString cidrString cidr,
        splitOnChar '/' (stripChars line.data) = [addrString, cidrString] ∧
        decToNat? cidrString = some cidr ∧
        cmd = firstCommand ++ " " ++ String.mk addrString ++ " "
          ++ maskString cidr ++ " " ++ secondCommand := by
  intro f s line cmd h
  unfold processLine at h
  split at h
  · simp at h
  · simp only at h
    split at h
    · simp at h
    · split at h
      · simp at h
      · split at h
        · rename_i addrString cidrString hsplit
          split at h
          · rename_i cidr hc
            simp only [Option.some.injEq] at h
            exact ⟨addrString, cidrString, cidr, hsplit, hc, h.symm⟩
          · simp at h
        · simp at h

theorem address_echoed_verbatim_witness :
    ∃ addrString cidrString cidr,
      splitOnChar '/' (stripChars "10.0.0.5/24".data) = [addrString, cidrString] ∧
      decToNat? cidrString = some cidr ∧
      "ip route 10.0.0.5 255.255.255.0 Null0 tag 66"
        = "ip route" ++ " " ++ String.mk addrString ++ " "
          ++ maskString cidr ++ " " ++ "Null0 tag 66" :=
  address_echoed_verbatim "ip route" "Null0 tag 66" "10.0.0.5/24"
    "ip route 10.0.0.5 255.255.255.0 Null0 tag 66" (by decide)

/-- C10: the delivered document is not just the command lines terminated by
`end`: the post-processing rewrites the file so it always begins with the
extra purge line `no ip route *` followed by the original content. -/
theorem purge_header_prepended :
    ∀ commands : List String,
      rewriteWithPurgeHeader (renderDocument commands)
          = "no ip route *\n" ++ renderDocument commands
      ∧ rewriteWithPurgeHeader (renderDocument commands)
          ≠ renderDocument commands := by
  intro commands
  refine ⟨rfl, ?_⟩
  intro h
  have hlen := congrArg String.length h
  rw [rewriteWithPurgeHeader, String.length_append] at hlen
  have h14 : ("no ip route *\n" : String).length = 14 := by decide
  omega

/-- C6: the claim says a non-comment line without `/` becomes a /32 host
block and is not dropped; the modelled Network Parser indeed accepts
`1.2.3.4` as a /32 block, but `generate_cisco_commands` skips such a line
(`if '/' not in line: continue`) and emits no command for it — the code
contradicts its own `Automatically add /32 mask if missing` comment in
`scripts/cisco_commands.py`. -/
theorem bare_address_line_dropped :
    parseLine (stripChars "1.2.3.4".data) = some (Block.mk 16909060 32) ∧
    processLine "ip route" "Null0 tag 66" "1.2.3.4" = none := by
  decide

/-- C7 counterexample: the line `1.2.3.0/24 # gw` carries a valid network
expression before its first `#`, yet no block is produced anywhere: the
command generator drops any line containing `#`, and the merge-stage parse
of the whole stripped line fails. -/
theorem comment_suffix_line_produces_no_block :
    parseLine "1.2.3.0/24".data = some (Block.mk 16909056 24) ∧
    processLine "ip route" "Null0 tag 66" "1.2.3.0/24 # gw" = none ∧
    parseLine (stripChars "1.2.3.0/24 # gw".data) = none := by
  decide

/-- C7 (amended): the command generator discards any line containing `#`
anywhere, whole — text before the `#` is never parsed; in the merge engine
a stripped line is skipped as comment/blank exactly when it is empty or
starts with `#`, and such skipped lines are neither parsed, added, nor
logged as parse failures (the accumulator is unchanged). -/
theorem comment_handling_amended :
    (∀ firstCommand secondCommand line, line.data.contains '#' = true →
      processLine firstCommand secondCommand line = none)
    ∧ (∀ acc line, isActive (stripChars line.data) = false →
        mergeStep acc line = acc)
    ∧ (∀ l : List Char, isActive l = false ↔
        l = [] ∨ ∃ rest, l = '#' :: rest) := by
  refine ⟨?_, ?_, ?_⟩
  · intro f s line h
    unfold processLine
    simp only [h]
    rfl
  · intro acc line h
    unfold mergeStep
    simp [h]
  · intro l
    cases l with
    | nil => simp [isActive]
    | cons c rest => simp [isActive]

theorem comment_handling_amended_witness :
    processLine "ip route" "Null0 tag 66" "# feed header" = none :=
  comment_handling_amended.1 "ip route" "Null0 tag 66" "# feed header"
    (by decide)

/-- C2: for every pair of normalized IP sets, subtraction yields a minimal
covering set whose addresses are exactly the addresses of the first set not
covered by the second (stated over the emitted CIDR blocks, whose union is
the set's addresses); in particular `{10.0.0.0/24} - {10.0.0.128/25}`
yields exactly `{10.0.0.0/25}`. -/
theorem subtract_minimal_covering :
    ∀ (A B : IPSet), NormFrom 0 A.ivs → NormFrom 0 B.ivs →
      (∀ x, coveredBy x (A.subtract B).iterCidrs ↔
        coveredBy x A.iterCidrs ∧ ¬ coveredBy x B.iterCidrs)
      ∧ (A.subtract B).iterCidrs.Pairwise WellSplit
      ∧ ((IPSet.empty.add (Block.mk 167772160 24)).subtract
          (IPSet.empty.add (Block.mk 167772288 25))).iterCidrs
          = [Block.mk 167772160 25] := by
  intro A B hA hB
  have hS := IPSet.subtract_norm hA hB
  refine ⟨?_, IPSet.iterCidrs_pairwise_of_norm hS, by decide⟩
  intro x
  rw [IPSet.coveredBy_iterCidrs hS x, IPSet.coveredBy_iterCidrs hA x,
    IPSet.coveredBy_iterCidrs hB x, IPSet.mem_subtract]

theorem subtract_minimal_covering_witness :
    ((IPSet.empty.add (Block.mk 167772160 24)).subtract
      (IPSet.empty.add (Block.mk 167772288 25))).iterCidrs
      = [Block.mk 167772160 25] :=
  (subtract_minimal_covering (IPSet.empty.add (Block.mk 167772160 24))
    (IPSet.empty.add (Block.mk 167772288 25)) (by decide) (by decide)).2.2

/-- C3: after any sequence of `add` and `subtract` operations starting from
the empty set, the emitted CIDR sequence is pairwise well split: strictly
ascending addresses, no two blocks overlap, and no two blocks are adjacent
same-length siblings of a common supernet (they would have been merged);
and adding `10.0.0.0/25` and `10.0.0.128/25` yields the single block
`10.0.0.0/24`. -/
theorem ipset_minimal_invariant :
    (∀ s : IPSet, s.Reachable → s.iterCidrs.Pairwise WellSplit)
    ∧ ((IPSet.empty.add (Block.mk 167772160 25)).add
        (Block.mk 167772288 25)).iterCidrs = [Block.mk 167772160 24] :=
  ⟨fun _ hs => IPSet.iterCidrs_pairwise_of_norm (IPSet.reachable_norm hs),
    by decide⟩

theorem ipset_minimal_invariant_witness :
    ((IPSet.empty.add (Block.mk 167772160 25)).add
      (Block.mk 167772288 25)).iterCidrs.Pairwise WellSplit :=
  ipset_minimal_invariant.1 _
    (IPSet.Reachable.add
      (IPSet.Reachable.add IPSet.Reachable.empty (by decide) (by decide))
      (by decide) (by decide))

/-- C4: the engine fails with `noValidNetworks` exactly when no active
(stripped, non-blank, non-comment) source line parses; every malformed
active line is logged, and one parsable line among any number of malformed
ones is enough for the run not to fail with `noValidNetworks`. -/
theorem engine_no_valid_networks :
    ∀ (sources : List (List String)) (exclusions : List String),
      ((merge_ip_ranges sources exclusions).result
          = .error .noValidNetworks ↔
        ∀ l ∈ activeLines sources, parseLine l = none)
      ∧ (∀ l ∈ activeLines sources, parseLine l = none →
          String.mk l ∈ (merge_ip_ranges sources exclusions).log)
      ∧ ((∃ l ∈ activeLines sources, (parseLine l).isSome) →
          (merge_ip_ranges sources exclusions).result
            ≠ .error .noValidNetworks) := by
  intro sources exclusions
  have hIff : (merge_ip_ranges sources exclusions).result
      = .error .noValidNetworks ↔
      ∀ l ∈ activeLines sources, parseLine l = none := by
    rw [← mergedStateOf_flag]
    unfold merge_ip_ranges
    by_cases hb : (mergedStateOf sources).2.1 = false
    · simp [hb]
    · by_cases hf : (finalSetOf sources exclusions).ivs = [] <;>
        simp [hb, hf]
  refine ⟨hIff, ?_, ?_⟩
  · intro l hl hnone
    rw [merge_ip_ranges_log]
    show String.mk l ∈ (mergedStateOf sources).2.2
    rw [mergedStateOf, foldl_mergeStep_log]
    obtain ⟨line, hline, heq, hact⟩ := mem_activeLines.mp hl
    simp only [List.nil_append]
    apply List.mem_flatMap.mpr
    refine ⟨line, hline, ?_⟩
    rw [heq]
    simp [hact, hnone]
  · rintro ⟨l, hl, hsome⟩ h
    have := (hIff.mp h) l hl
    simp [this] at hsome

theorem engine_no_valid_networks_witness :
    (merge_ip_ranges [["not-an-ip", "1.2.3.4"]] []).result
      ≠ .error .noValidNetworks :=
  (engine_no_valid_networks [["not-an-ip", "1.2.3.4"]] []).2.2
    ⟨"1.2.3.4".data, by decide, by decide⟩

/-- C5: once at least one source line has parsed, the engine fails with
`emptyAfterExclusion` exactly when the merged set minus the exclusion set
is empty (equivalently: the exclusions covered every accumulated address),
and when that set is non-empty the run succeeds with its minimal CIDR
sequence. -/
theorem engine_empty_after_exclusion :
    ∀ (sources : List (List String)) (exclusions : List String),
      (mergedStateOf sources).2.1 = true →
      ((merge_ip_ranges sources exclusions).result
          = .error .emptyAfterExclusion ↔
        (finalSetOf sources exclusions).ivs = [])
      ∧ ((finalSetOf sources exclusions).ivs = [] ↔
          ∀ x, ¬ (finalSetOf sources exclusions).mem x)
      ∧ ((finalSetOf sources exclusions).ivs ≠ [] →
          (merge_ip_ranges sources exclusions).result
            = .ok (finalSetOf sources exclusions).iterCidrs) := by
  intro sources exclusions hflag
  have hnorm := finalSetOf_norm sources exclusions
  refine ⟨?_, IPSet.empty_iff_no_mem hnorm, ?_⟩
  · by_cases hf : (finalSetOf sources exclusions).ivs = [] <;>
      simp [merge_ip_ranges, hflag, hf]
  · intro hne
    simp [merge_ip_ranges, hflag, hne]

theorem engine_empty_after_exclusion_witness :
    (merge_ip_ranges [["10.0.0.0/24"]] ["10.0.0.0/24"]).result
      = .error .emptyAfterExclusion :=
  (engine_empty_after_exclusion [["10.0.0.0/24"]] ["10.0.0.0/24"]
    (by decide)).1.mpr (by decide)
